import Mathlib

/-!
# Verification of the PMacc particle-container core (`ParticlesBase.hpp`)

A shallow embedding of the particle container of
`src/include/pmacc/particles/ParticlesBase.hpp` and of the kernel /
buffer operations it drives.  The driver code (`shiftParticles`,
`fillGaps`, `fillAllGaps`, the stride static assertion, the
`Exchanges` / `TileSize` constants) is embedded from the source
header; the kernel bodies and the `.tpp` implementations are not part
of the provided sources, so they are modelled from the specification
(each such definition carries a doc comment starting with
`Modelled from the spec:`).

Conventions of the embedding:
* supercells are flattened to indices `0, 1, …, n-1` of a list;
* a particle records its position as a global (1-dimensional,
  flattened) cell index `pos : Nat`; the supercell owning position
  `pos` is `pos / W` where `W` is the number of cells per supercell;
* a frame is a list of slots, each slot `Option Particle`
  (`none` is an invalidated slot, i.e. a gap); a frame of the real
  code has a fixed capacity `TileSize`, embedded as the bound
  `C` on the slot-list length;
* the live-particle counter of a supercell is an explicit field
  `numParticles`, distinct from the actual frame contents, exactly as
  in the source (`copyGuardToExchange` resets the counter without
  touching the frames).
-/

namespace PMacc

/-- A particle: a recorded position (global cell index, flattened to one
dimension) together with a physical attribute payload.  The validity bit
of the source is embedded by wrapping slots in `Option`. -/
structure Particle where
  pos : Nat
  attr : Nat
deriving DecidableEq, Repr

/-- A slot of a frame: either a live particle or an invalidated hole. -/
abbrev Slot := Option Particle

/-- A frame: the ordered slots of one fixed-capacity particle block.
The capacity bound `TileSize` is enforced by the operations, not by the
type. -/
abbrev Frame := List Slot

/-- A supercell: a list of frames plus the live-particle counter
maintained by the kernels. -/
structure SuperCell where
  frames : List Frame
  numParticles : Nat
deriving DecidableEq, Repr

/-- The empty supercell (no frames, counter zero). -/
def emptySC : SuperCell := ⟨[], 0⟩

/-- The live particles stored in a frame, in slot order. -/
def frameLive (f : Frame) : List Particle := f.filterMap id

/-- The live particles stored in a supercell, in frame-list order. -/
def scLive (sc : SuperCell) : List Particle := sc.frames.flatten.filterMap id

/-- The number of live particles actually stored in a supercell
(as opposed to the `numParticles` counter). -/
def countLive (sc : SuperCell) : Nat := (scLive sc).length

/-- Total live particle count of a list of supercells. -/
def totalLive (s : List SuperCell) : Nat := (s.map countLive).sum

/-- The supercell index owning a particle's recorded position, for
supercell width `W` (cells per supercell). -/
def cellOf (W : Nat) (p : Particle) : Nat := p.pos / W

/-! ## Appending a particle (the ParticlesBox primitive)

Modelled from the spec: the `ParticlesBox` append primitive
(`pmacc/particles/memory/boxes/ParticlesBox.hpp`, not among the
provided sources) appends a particle to a supercell's tail frame,
"allocating a new frame transparently if the current tail frame is
full" (§4.3).  `C` is the frame capacity `TileSize`. -/
def appendToFrames (C : Nat) (p : Particle) : List Frame → List Frame
  | [] => [[some p]]
  | [f] => if f.length < C then [f ++ [some p]] else [f, [some p]]
  | f :: g :: rest => f :: appendToFrames C p (g :: rest)

/-- Modelled from the spec: appending a particle to a supercell via the
`ParticlesBox` primitive; the live counter is incremented. -/
def appendParticle (C : Nat) (p : Particle) (sc : SuperCell) : SuperCell :=
  { frames := appendToFrames C p sc.frames, numParticles := sc.numParticles + 1 }

/-! ## The Shift Engine kernel

`KernelShiftParticles` (file `pmacc/particles/ParticlesBase.kernel`, not
among the provided sources) is modelled from the spec:
"relocate every particle whose computed post-motion position now falls
outside its current supercell into the correct neighboring supercell"
(§4.4).  Processing supercell `i` invalidates the slots of all
particles whose position lies outside supercell `i` and appends each
such particle to the supercell owning its position (a particle whose
destination lies outside the table is dropped from the table, matching
motion that leaves the mapped grid). -/

/-- Modelled from the spec: invalidate the slots of supercell-`i`
leavers in one frame (the Shift Engine marks a migrated slot invalid). -/
def holeOut (W : Nat) (i : Nat) (f : Frame) : Frame :=
  f.map fun sl =>
    match sl with
    | some p => if cellOf W p = i then some p else none
    | none => none

/-- Modelled from the spec: the particles of supercell `i` whose
recorded position lies outside supercell `i` (the migrating particles). -/
def leavers (W : Nat) (i : Nat) (sc : SuperCell) : List Particle :=
  (scLive sc).filter fun p => cellOf W p ≠ i

/-- Modelled from the spec: deposit each particle of `ps` into the
supercell owning its position (in range), appending via the
`ParticlesBox` primitive; out-of-range destinations are dropped. -/
def depositAll (W C : Nat) (ps : List Particle) (s : List SuperCell) : List SuperCell :=
  ps.foldl
    (fun st p =>
      let j := cellOf W p
      if j < st.length then st.set j (appendParticle C p (st.getD j emptySC)) else st)
    s

/-- Modelled from the spec: one work-group of `KernelShiftParticles`
processing supercell `i`: leavers are removed from `i` (their slots
invalidated, the counter decremented) and appended to the supercells
owning their positions. -/
def shiftSupercell (W C : Nat) (s : List SuperCell) (i : Nat) : List SuperCell :=
  if i < s.length then
    let sc := s.getD i emptySC
    let out := leavers W i sc
    let sc' : SuperCell :=
      { frames := sc.frames.map (holeOut W i), numParticles := sc.numParticles - out.length }
    depositAll W C out (s.set i sc')
  else s

/-! ## The strided mapping and the `shiftParticles` driver -/

/-- Modelled from the spec: the supercells of the mapped area visited
by the pass with offset `k` of a stride mapping — the area members of
the table congruent to `k` modulo the stride (§4.4: "One pass processes
a stride-spaced subset"). -/
def passIndices (area : Nat → Bool) (stride n k : Nat) : List Nat :=
  (List.range n).filter fun i => area i && i % stride == k

/-- Modelled from the spec: the sequence of stride-spaced passes the
driver dispatches, one per stride offset ("the driver repeats passes
until the mapping reports the region fully covered"). -/
def passesOf (area : Nat → Bool) (stride n : Nat) : List (List Nat) :=
  (List.range stride).map (passIndices area stride n)

/-- `shiftParticles(strideMapperFactory)` of `ParticlesBase.hpp`
(lines 123–143): the compile-time assertion
`PMACC_CASSERT_MSG(..., Stride >= 3)` rejects a mapper whose stride is
below 3 (embedded as the `none` result); otherwise every stride-spaced
pass is dispatched in order until the mapped area is covered.  The
result is the final supercell table together with the dispatched pass
sequence. -/
def shiftParticlesWith (W C : Nat) (area : Nat → Bool) (stride : Nat)
    (s : List SuperCell) : Option (List SuperCell × List (List Nat)) :=
  if stride < 3 then none
  else
    let passes := passesOf area stride s.length
    some (passes.flatten.foldl (shiftSupercell W C) s, passes)

/-- `shiftParticles<T_area>()` of `ParticlesBase.hpp` (lines 106–110):
delegates to the factory overload with a stride-3 area mapper factory
(`StrideAreaMapperFactory<T_area, 3>`). -/
def shiftParticles (W C : Nat) (area : Nat → Bool) (s : List SuperCell) :
    Option (List SuperCell × List (List Nat)) :=
  shiftParticlesWith W C area 3 s

/-! ## The Gap Filler -/

/-- Regroup a list into consecutive groups of `C` elements, recursing
on a fuel bound (any fuel at least the list length yields the full
grouping). -/
def chunkAux (C : Nat) : Nat → List Particle → List (List Particle)
  | 0, _ => []
  | _ + 1, [] => []
  | fuel + 1, x :: xs => (x :: xs.take (C - 1)) :: chunkAux C fuel (xs.drop (C - 1))

/-- Regroup a list into consecutive groups of `C` elements (the last
group may be shorter).  Used to model the frame layout produced by the
compaction kernel. -/
def chunk (C : Nat) (l : List Particle) : List (List Particle) :=
  chunkAux C l.length l

/-- Modelled from the spec: `KernelFillGaps`
(file `pmacc/particles/ParticlesBase.kernel`, not among the provided
sources) compacts one supercell: every invalidated slot is filled by a
particle moved back from the tail of the list and emptied frames are
released, so the surviving particles end up densely packed in frames
full from the head except possibly the last (§4.5); the live counter is
restored to the true particle count.  The source compaction moves the
last valid particle into each hole, an order the spec declares
meaningless (§3: "order carries no semantic meaning"); the embedding
keeps the particles in traversal order. -/
def fillGapsSupercell (C : Nat) (sc : SuperCell) : SuperCell :=
  { frames := (chunk C (scLive sc)).map (fun l => l.map some),
    numParticles := (scLive sc).length }

/-- `fillGaps<AREA>()` of `ParticlesBase.hpp` (lines 148–158):
dispatch the gap-filling kernel over every supercell of the mapped
area; `area` embeds the area-mapper selection, `i` is the index of the
head of `s` in the supercell table. -/
def fillGapsFrom (C : Nat) (area : Nat → Bool) (i : Nat) : List SuperCell → List SuperCell
  | [] => []
  | sc :: rest =>
      (if area i then fillGapsSupercell C sc else sc) :: fillGapsFrom C area (i + 1) rest

/-- `fillGaps<AREA>()` over the whole table. -/
def fillGaps (C : Nat) (area : Nat → Bool) (s : List SuperCell) : List SuperCell :=
  fillGapsFrom C area 0 s

/-- `fillAllGaps()` of `ParticlesBase.hpp` (lines 164–167): fill the
gaps of the complete area `CORE + BORDER + GUARD`, i.e. of every
supercell of the table. -/
def fillAllGaps (C : Nat) (s : List SuperCell) : List SuperCell :=
  fillGaps C (fun _ => true) s

/-! ## The particle buffer and the Guard Exchange -/

/-- Modelled from the spec: `NumberOfExchanges<Dim>::value`
(`pmacc/traits/NumberOfExchanges.hpp`, not among the provided sources):
the number of neighbor directions of the partition topology, fixed by
the dimensionality — all nonzero offsets in `\x7b-1,0,1\x7d^Dim`. -/
def numberOfExchanges (dim : Nat) : Nat := 3 ^ dim - 1

/-- The particle buffer: the supercell table plus one exchange buffer
per neighbor direction (spec §3, §4.2). -/
structure PBuffer where
  supercells : List SuperCell
  exchanges : List (List Particle)
deriving DecidableEq, Repr

/-- A freshly constructed particle buffer: `n` empty supercells and one
empty exchange buffer per neighbor direction of dimensionality `dim`
(spec §4.2, §6). -/
def mkBuffer (dim n : Nat) : PBuffer :=
  { supercells := List.replicate n emptySC,
    exchanges := List.replicate (numberOfExchanges dim) [] }

/-- Modelled from the spec: the particles of the GUARD supercells of
one direction that pass the exchange-eligibility test, collected in
table order; `i` is the index of the head of `s` in the table and
`guard` the direction's GUARD membership per the external mapping. -/
def guardLiveFrom (elig : Particle → Bool) (guard : Nat → Bool) (i : Nat) :
    List SuperCell → List Particle
  | [] => []
  | sc :: rest =>
      (if guard i then (scLive sc).filter elig else []) ++ guardLiveFrom elig guard (i + 1) rest

/-- Modelled from the spec: reset the live counter of every processed
(GUARD) supercell to zero, leaving the frames untouched. -/
def zeroGuardFrom (guard : Nat → Bool) (i : Nat) : List SuperCell → List SuperCell
  | [] => []
  | sc :: rest =>
      (if guard i then { frames := sc.frames, numParticles := 0 } else sc)
        :: zeroGuardFrom guard (i + 1) rest

/-- `copyGuardToExchange(exchangeType)` (declared in
`ParticlesBase.hpp` lines 184–193, implemented in the `.tpp` not among
the provided sources).  Modelled from the spec: copies every
(exchange-eligible) particle of the GUARD supercells of direction `D`
into that direction's exchange buffer, then unconditionally resets the
live counter of each processed supercell to zero — even when particles
remain — and does not touch the frames (so the last frame need not be
contiguously filled). -/
def copyGuardToExchange (elig : Particle → Bool) (guard : Nat → Bool) (D : Nat)
    (b : PBuffer) : PBuffer :=
  { supercells := zeroGuardFrom guard 0 b.supercells,
    exchanges :=
      b.exchanges.set D (b.exchanges.getD D [] ++ guardLiveFrom elig guard 0 b.supercells) }

/-- `insertParticles(exchangeType)` (declared in `ParticlesBase.hpp`
lines 195–197, implemented in the `.tpp` not among the provided
sources).  Modelled from the spec: appends every particle staged in the
direction's exchange buffer into the correct local supercell
(allocating frames as needed), then clears the buffer (§4.6 phase 3). -/
def insertParticles (W C : Nat) (D : Nat) (b : PBuffer) : PBuffer :=
  { supercells := depositAll W C (b.exchanges.getD D []) b.supercells,
    exchanges := b.exchanges.set D [] }

/-- Modelled from the spec: `deleteGuardParticles(exchangeType)`
(declared in `ParticlesBase.hpp` lines 176–178): removes all particles
from the GUARD supercells of one direction without staging them. -/
def deleteGuardFrom (guard : Nat → Bool) (i : Nat) : List SuperCell → List SuperCell
  | [] => []
  | sc :: rest =>
      (if guard i then emptySC else sc) :: deleteGuardFrom guard (i + 1) rest

/-- `deleteGuardParticles` over the whole table. -/
def deleteGuardParticles (guard : Nat → Bool) (b : PBuffer) : PBuffer :=
  { b with supercells := deleteGuardFrom guard 0 b.supercells }

/-- Modelled from the spec: `reset(step)` returns every supercell to
the empty state and clears the exchange buffers (§4.2). -/
def resetBuffer (b : PBuffer) : PBuffer :=
  { supercells := b.supercells.map fun _ => emptySC,
    exchanges := b.exchanges.map fun _ => [] }

/-- Modelled from the spec: the ParticlesBox append primitive applied
at one supercell of the table (§4.3). -/
def appendAt (C : Nat) (i : Nat) (p : Particle) (s : List SuperCell) : List SuperCell :=
  if i < s.length then s.set i (appendParticle C p (s.getD i emptySC)) else s

/-- The buffer states reachable from a freshly constructed buffer by
the public operations of `ParticlesBase` (and the ParticlesBox append
primitive plus staging of received exchange data). -/
inductive Reach (W C : Nat) : PBuffer → Prop
  | init (dim n : Nat) : Reach W C (mkBuffer dim n)
  | append (b : PBuffer) (i : Nat) (p : Particle) : Reach W C b →
      Reach W C { b with supercells := appendAt C i p b.supercells }
  | recv (b : PBuffer) (D : Nat) (ps : List Particle) : Reach W C b →
      Reach W C { b with exchanges := b.exchanges.set D (b.exchanges.getD D [] ++ ps) }
  | shift (b : PBuffer) (area : Nat → Bool) (stride : Nat)
      (s' : List SuperCell) (ds : List (List Nat)) : Reach W C b →
      shiftParticlesWith W C area stride b.supercells = some (s', ds) →
      Reach W C { b with supercells := s' }
  | fill (b : PBuffer) (area : Nat → Bool) : Reach W C b →
      Reach W C { b with supercells := fillGaps C area b.supercells }
  | delGuard (b : PBuffer) (guard : Nat → Bool) : Reach W C b →
      Reach W C (deleteGuardParticles guard b)
  | copyGuard (b : PBuffer) (elig : Particle → Bool) (guard : Nat → Bool) (D : Nat) :
      Reach W C b → Reach W C (copyGuardToExchange elig guard D b)
  | insert (b : PBuffer) (D : Nat) : Reach W C b → Reach W C (insertParticles W C D b)
  | reset (b : PBuffer) : Reach W C b → Reach W C (resetBuffer b)

/-! ## Spatial predicates -/

/-- Supercell indices `i` and `j` are adjacent in the flattened table:
distinct and at distance at most one. -/
def scAdjacent (i j : Nat) : Prop := i ≠ j ∧ i ≤ j + 1 ∧ j ≤ i + 1

/-- Modelled from the spec: membership of a supercell coordinate in one
parallel pass of a `d`-dimensional stride mapping with offset
`off` — the coordinate is congruent to the offset modulo the stride
along every axis (§4.4). -/
def inStridePass (d stride : Nat) (off c : Fin d → Int) : Prop :=
  ∀ a : Fin d, (stride : Int) ∣ (c a - off a)

/-- Two `d`-dimensional supercell coordinates are adjacent (Moore
neighborhood): distinct and within distance one along every axis. -/
def mooreAdjacent (d : Nat) (a b : Fin d → Int) : Prop :=
  a ≠ b ∧ ∀ ax : Fin d, |a ax - b ax| ≤ 1

/-- Compaction invariant of one supercell (spec §3, §8): all frames
hole-free and within capacity, and every frame but the last completely
full. -/
def IsCompact (C : Nat) (sc : SuperCell) : Prop :=
  (∀ f ∈ sc.frames.dropLast, f.length = C) ∧
    ∀ f ∈ sc.frames, f.length ≤ C ∧ ∀ sl ∈ f, sl ≠ none

/-- Frame-capacity invariant of a supercell table: no frame holds more
slots than the tile volume `C`. -/
def FramesWF (C : Nat) (s : List SuperCell) : Prop :=
  ∀ sc ∈ s, ∀ f ∈ sc.frames, f.length ≤ C

/-- The live particle count summed over the area's supercells, `i`
being the table index of the head of `s`. -/
def areaTotalFrom (area : Nat → Bool) (i : Nat) : List SuperCell → Nat
  | [] => 0
  | sc :: rest => (if area i then countLive sc else 0) + areaTotalFrom area (i + 1) rest

/-- The live particle count summed over the supercells of an area. -/
def areaTotal (area : Nat → Bool) (s : List SuperCell) : Nat :=
  areaTotalFrom area 0 s

/-- The multiset of all live particles of a supercell table. -/
def allP (s : List SuperCell) : Multiset Particle :=
  (s.map fun sc => (scLive sc : Multiset Particle)).sum

/-- The supercell replacing supercell `i` after its work-group ran:
leavers' slots invalidated, counter decremented. -/
def holedCell (W i : Nat) (sc : SuperCell) : SuperCell :=
  { frames := sc.frames.map (holeOut W i),
    numParticles := sc.numParticles - (leavers W i sc).length }

/-- The particle motion recorded in table `s` stays inside the mapped
region: every particle stored in a region supercell is destined for a
region supercell of the table. -/
def AreaClosed (W : Nat) (area : Nat → Bool) (s : List SuperCell) : Prop :=
  ∀ i, i < s.length → area i = true → ∀ p ∈ scLive (s.getD i emptySC),
    area (cellOf W p) = true ∧ cellOf W p < s.length

/-- Every supercell satisfying `Q` holds only particles destined for it. -/
def PlacedOn (W : Nat) (Q : Nat → Prop) (s : List SuperCell) : Prop :=
  ∀ i, Q i → ∀ p ∈ scLive (s.getD i emptySC), cellOf W p = i

/-! ## List helper lemmas -/

theorem getD_set_self {α : Type _} {s : List α} {i : Nat} {x e : α} (h : i < s.length) :
    (s.set i x).getD i e = x := by
  rw [List.getD_eq_getElem?_getD, List.getElem?_set_self h]
  rfl

theorem getD_set_ne {α : Type _} {s : List α} {i j : Nat} {x e : α} (h : i ≠ j) :
    (s.set i x).getD j e = s.getD j e := by
  rw [List.getD_eq_getElem?_getD, List.getElem?_set_ne h, ← List.getD_eq_getElem?_getD]

/-! ## Facts about the append primitive -/

theorem appendToFrames_flatten (C : Nat) (p : Particle) :
    ∀ fs : List Frame, (appendToFrames C p fs).flatten = fs.flatten ++ [some p]
  | [] => by simp [appendToFrames]
  | [f] => by
    by_cases h : f.length < C <;> simp [appendToFrames, h]
  | f :: g :: rest => by
    simp only [appendToFrames, List.flatten_cons, appendToFrames_flatten C p (g :: rest)]
    simp

theorem scLive_append (C : Nat) (p : Particle) (sc : SuperCell) :
    scLive (appendParticle C p sc) = scLive sc ++ [p] := by
  simp [scLive, appendParticle, appendToFrames_flatten, List.filterMap_append]

theorem num_append (C : Nat) (p : Particle) (sc : SuperCell) :
    (appendParticle C p sc).numParticles = sc.numParticles + 1 := rfl

/-! ## Facts about one shift work-group -/

theorem frameLive_holeOut (W i : Nat) (f : Frame) :
    (holeOut W i f).filterMap id = (f.filterMap id).filter fun p => cellOf W p = i := by
  induction f with
  | nil => rfl
  | cons sl rest ih =>
    cases sl with
    | none => simpa [holeOut, List.filterMap_cons] using ih
    | some p =>
      by_cases h : cellOf W p = i
      · simpa [holeOut, List.filterMap_cons, List.filter_cons, h] using ih
      · simpa [holeOut, List.filterMap_cons, List.filter_cons, h] using ih

theorem flatten_holed (W i : Nat) :
    ∀ fs : List Frame,
      ((fs.map (holeOut W i)).flatten).filterMap id
        = (fs.flatten.filterMap id).filter fun p => cellOf W p = i
  | [] => rfl
  | f :: rest => by
    simp only [List.map_cons, List.flatten_cons, List.filterMap_append, List.filter_append,
      frameLive_holeOut, flatten_holed W i rest]

theorem scLive_holed (W i : Nat) (sc : SuperCell) :
    scLive { frames := sc.frames.map (holeOut W i),
             numParticles := sc.numParticles - (leavers W i sc).length }
      = (scLive sc).filter fun p => cellOf W p = i := by
  simpa [scLive] using flatten_holed W i sc.frames

/-! ## The particle multiset -/

theorem allP_set {s : List SuperCell} {i : Nat} {x : SuperCell} (h : i < s.length) :
    allP (s.set i x) + (scLive (s.getD i emptySC) : Multiset Particle)
      = allP s + (scLive x : Multiset Particle) := by
  induction s generalizing i with
  | nil => simp at h
  | cons sc rest ih =>
    cases i with
    | zero =>
      simp only [List.set_cons_zero, allP, List.map_cons, List.sum_cons, List.getD_cons_zero]
      abel
    | succ i =>
      have hlt : i < rest.length := by simpa using h
      have := ih hlt
      simp only [List.set_cons_succ, allP, List.map_cons, List.sum_cons,
        List.getD_cons_succ] at this ⊢
      calc (scLive sc : Multiset Particle) + (allP (rest.set i x)) + (scLive (rest.getD i emptySC))
          = (scLive sc : Multiset Particle) + ((allP (rest.set i x)) + (scLive (rest.getD i emptySC))) := by abel
        _ = (scLive sc : Multiset Particle) + (allP rest + (scLive x : Multiset Particle)) := by
            rw [show allP (rest.set i x) + ((scLive (rest.getD i emptySC) : Multiset Particle)) = allP rest + (scLive x : Multiset Particle) from this]
        _ = (scLive sc : Multiset Particle) + allP rest + (scLive x : Multiset Particle) := by abel

theorem mem_allP_of_mem_getD {s : List SuperCell} {i : Nat} {p : Particle}
    (h : i < s.length) (hp : p ∈ scLive (s.getD i emptySC)) : p ∈ allP s := by
  induction s generalizing i with
  | nil => simp at h
  | cons sc rest ih =>
    cases i with
    | zero =>
      simp only [List.getD_cons_zero] at hp
      simp only [allP, List.map_cons, List.sum_cons, Multiset.mem_add]
      exact Or.inl (by simpa using hp)
    | succ i =>
      have hlt : i < rest.length := by simpa using h
      have := ih hlt (by simpa using hp)
      simp only [allP, List.map_cons, List.sum_cons, Multiset.mem_add]
      exact Or.inr (by simpa [allP] using this)

theorem card_allP (s : List SuperCell) : Multiset.card (allP s) = totalLive s := by
  induction s with
  | nil => rfl
  | cons sc rest ih =>
    simp only [allP, totalLive, List.map_cons, List.sum_cons, Multiset.card_add,
      Multiset.coe_card] at ih ⊢
    simpa [allP, totalLive, countLive] using ih

/-! ## depositAll -/

theorem depositAll_cons (W C : Nat) (p : Particle) (ps : List Particle) (s : List SuperCell) :
    depositAll W C (p :: ps) s
      = depositAll W C ps
          (if cellOf W p < s.length
            then s.set (cellOf W p) (appendParticle C p (s.getD (cellOf W p) emptySC))
            else s) := by
  by_cases h : cellOf W p < s.length <;> simp [depositAll, h]

theorem length_depositAll (W C : Nat) :
    ∀ (ps : List Particle) (s : List SuperCell), (depositAll W C ps s).length = s.length
  | [], s => rfl
  | p :: ps, s => by
    rw [depositAll_cons]
    by_cases h : cellOf W p < s.length <;>
      simp [h, length_depositAll W C ps, List.length_set]

theorem allP_depositAll (W C : Nat) :
    ∀ (ps : List Particle) (s : List SuperCell),
      (∀ p ∈ ps, cellOf W p < s.length) →
      allP (depositAll W C ps s) = allP s + (ps : Multiset Particle)
  | [], s, _ => by simp [depositAll]
  | p :: ps, s, h => by
    have hp : cellOf W p < s.length := h p (List.mem_cons_self p ps)
    rw [depositAll_cons, if_pos hp]
    have hrest : ∀ q ∈ ps, cellOf W q < (s.set (cellOf W p) (appendParticle C p (s.getD (cellOf W p) emptySC))).length := by
      intro q hq
      simpa [List.length_set] using h q (List.mem_cons_of_mem p hq)
    rw [allP_depositAll W C ps _ hrest]
    have hset := allP_set (s := s) (i := cellOf W p)
      (x := appendParticle C p (s.getD (cellOf W p) emptySC)) hp
    rw [scLive_append] at hset
    have : allP (s.set (cellOf W p) (appendParticle C p (s.getD (cellOf W p) emptySC)))
        = allP s + ({p} : Multiset Particle) := by
      have h2 : allP (s.set (cellOf W p) (appendParticle C p (s.getD (cellOf W p) emptySC)))
            + (scLive (s.getD (cellOf W p) emptySC) : Multiset Particle)
          = (allP s + ({p} : Multiset Particle))
            + (scLive (s.getD (cellOf W p) emptySC) : Multiset Particle) := by
        rw [hset]
        have : ((scLive (s.getD (cellOf W p) emptySC) ++ [p] : List Particle) : Multiset Particle)
            = (scLive (s.getD (cellOf W p) emptySC) : Multiset Particle) + ({p} : Multiset Particle) := by
          rw [← Multiset.coe_singleton, ← Multiset.coe_add]
        rw [this]
        abel
      exact add_right_cancel h2
    rw [this]
    have hc : ((p :: ps : List Particle) : Multiset Particle)
        = ({p} : Multiset Particle) + (ps : Multiset Particle) := by
      rw [← Multiset.cons_coe, ← Multiset.singleton_add]
    rw [hc]
    abel

theorem depositAll_getD_of_not_dest (W C : Nat) :
    ∀ (ps : List Particle) (s : List SuperCell) (j : Nat),
      (∀ p ∈ ps, cellOf W p ≠ j) →
      (depositAll W C ps s).getD j emptySC = s.getD j emptySC
  | [], _, _, _ => rfl
  | p :: ps, s, j, h => by
    rw [depositAll_cons]
    by_cases hp : cellOf W p < s.length
    · rw [if_pos hp,
        depositAll_getD_of_not_dest W C ps _ j fun q hq => h q (List.mem_cons_of_mem p hq),
        getD_set_ne (h p (List.mem_cons_self p ps))]
    · rw [if_neg hp]
      exact depositAll_getD_of_not_dest W C ps s j fun q hq => h q (List.mem_cons_of_mem p hq)

theorem mem_depositAll_getD (W C : Nat) :
    ∀ (ps : List Particle) (s : List SuperCell) (j : Nat) (p : Particle),
      p ∈ scLive ((depositAll W C ps s).getD j emptySC) →
      p ∈ scLive (s.getD j emptySC) ∨ (p ∈ ps ∧ cellOf W p = j)
  | [], _, _, _, h => Or.inl h
  | q :: ps, s, j, p, h => by
    rw [depositAll_cons] at h
    by_cases hq : cellOf W q < s.length
    · rw [if_pos hq] at h
      rcases mem_depositAll_getD W C ps _ j p h with h1 | h1
      · by_cases hj : cellOf W q = j
        · subst hj
          rw [getD_set_self hq, scLive_append] at h1
          rcases List.mem_append.1 h1 with h2 | h2
          · exact Or.inl h2
          · have hpq : p = q := by simpa using h2
            subst hpq
            exact Or.inr ⟨List.mem_cons_self p ps, rfl⟩
        · rw [getD_set_ne hj] at h1
          exact Or.inl h1
      · exact Or.inr ⟨List.mem_cons_of_mem q h1.1, h1.2⟩
    · rw [if_neg hq] at h
      rcases mem_depositAll_getD W C ps s j p h with h1 | h1
      · exact Or.inl h1
      · exact Or.inr ⟨List.mem_cons_of_mem q h1.1, h1.2⟩

/-! ## shiftSupercell -/

theorem shiftSupercell_of_lt {W C i : Nat} {s : List SuperCell} (hi : i < s.length) :
    shiftSupercell W C s i
      = depositAll W C (leavers W i (s.getD i emptySC))
          (s.set i (holedCell W i (s.getD i emptySC))) := by
  simp [shiftSupercell, holedCell, hi]

theorem shiftSupercell_of_ge {W C i : Nat} {s : List SuperCell} (hi : ¬ i < s.length) :
    shiftSupercell W C s i = s := by
  simp [shiftSupercell, hi]

theorem length_shiftSupercell (W C : Nat) (s : List SuperCell) (i : Nat) :
    (shiftSupercell W C s i).length = s.length := by
  by_cases hi : i < s.length
  · rw [shiftSupercell_of_lt hi, length_depositAll, List.length_set]
  · rw [shiftSupercell_of_ge hi]

theorem scLive_holedCell (W i : Nat) (sc : SuperCell) :
    scLive (holedCell W i sc) = (scLive sc).filter fun p => cellOf W p = i :=
  scLive_holed W i sc

theorem leavers_subset (W i : Nat) (sc : SuperCell) {p : Particle}
    (h : p ∈ leavers W i sc) : p ∈ scLive sc :=
  (List.mem_filter.1 h).1

theorem mem_holedCell (W i : Nat) (sc : SuperCell) {p : Particle}
    (h : p ∈ scLive (holedCell W i sc)) : p ∈ scLive sc ∧ cellOf W p = i := by
  rw [scLive_holedCell] at h
  have := List.mem_filter.1 h
  exact ⟨this.1, by simpa using this.2⟩

theorem holed_add_leavers (W i : Nat) (sc : SuperCell) :
    (scLive (holedCell W i sc) : Multiset Particle) + (leavers W i sc : Multiset Particle)
      = (scLive sc : Multiset Particle) := by
  rw [scLive_holedCell, Multiset.coe_add, Multiset.coe_eq_coe]
  have h := List.filter_append_perm (fun p => decide (cellOf W p = i)) (scLive sc)
  simpa [leavers, decide_not] using h

theorem allP_shiftSupercell (W C : Nat) (s : List SuperCell) (i : Nat)
    (h : ∀ p ∈ scLive (s.getD i emptySC), cellOf W p < s.length) :
    allP (shiftSupercell W C s i) = allP s := by
  by_cases hi : i < s.length
  · rw [shiftSupercell_of_lt hi]
    have hout : ∀ p ∈ leavers W i (s.getD i emptySC),
        cellOf W p < (s.set i (holedCell W i (s.getD i emptySC))).length := by
      intro p hp
      rw [List.length_set]
      exact h p (leavers_subset W i _ hp)
    rw [allP_depositAll W C _ _ hout]
    have hset := allP_set (s := s) (i := i) (x := holedCell W i (s.getD i emptySC)) hi
    have key : allP (s.set i (holedCell W i (s.getD i emptySC)))
          + (leavers W i (s.getD i emptySC) : Multiset Particle)
          + (scLive (s.getD i emptySC) : Multiset Particle)
        = allP s + (scLive (s.getD i emptySC) : Multiset Particle) := by
      calc allP (s.set i (holedCell W i (s.getD i emptySC)))
            + (leavers W i (s.getD i emptySC) : Multiset Particle)
            + (scLive (s.getD i emptySC) : Multiset Particle)
          = allP (s.set i (holedCell W i (s.getD i emptySC)))
            + (scLive (s.getD i emptySC) : Multiset Particle)
            + (leavers W i (s.getD i emptySC) : Multiset Particle) := by abel
        _ = allP s + (scLive (holedCell W i (s.getD i emptySC)) : Multiset Particle)
            + (leavers W i (s.getD i emptySC) : Multiset Particle) := by rw [hset]
        _ = allP s + ((scLive (holedCell W i (s.getD i emptySC)) : Multiset Particle)
            + (leavers W i (s.getD i emptySC) : Multiset Particle)) := by abel
        _ = allP s + (scLive (s.getD i emptySC) : Multiset Particle) := by
            rw [holed_add_leavers]
    exact add_right_cancel key
  · rw [shiftSupercell_of_ge hi]

/-! ## Motion staying inside the mapped region -/

theorem shiftSupercell_getD_of_ne_dest {W C k j : Nat} {s : List SuperCell}
    (hj : j ≠ k) (hdest : ∀ p ∈ leavers W k (s.getD k emptySC), cellOf W p ≠ j) :
    (shiftSupercell W C s k).getD j emptySC = s.getD j emptySC := by
  by_cases hk : k < s.length
  · rw [shiftSupercell_of_lt hk, depositAll_getD_of_not_dest W C _ _ j hdest,
      getD_set_ne (fun h => hj h.symm)]
  · rw [shiftSupercell_of_ge hk]

theorem areaClosed_shiftSupercell {W C k : Nat} {area : Nat → Bool} {s : List SuperCell}
    (hk : area k = true) (h : AreaClosed W area s) :
    AreaClosed W area (shiftSupercell W C s k)
      ∧ (∀ j, area j = false → (shiftSupercell W C s k).getD j emptySC = s.getD j emptySC) := by
  by_cases hklt : k < s.length
  · have hout : ∀ p ∈ leavers W k (s.getD k emptySC),
        area (cellOf W p) = true ∧ cellOf W p < s.length := fun p hp =>
      h k hklt hk p (leavers_subset W k _ hp)
    constructor
    · intro i hi hai p hp
      rw [length_shiftSupercell] at hi
      rw [shiftSupercell_of_lt hklt] at hp
      rcases mem_depositAll_getD W C _ _ i p hp with h1 | h1
      · by_cases hik : i = k
        · subst hik
          rw [getD_set_self hklt] at h1
          have := mem_holedCell W i _ h1
          have h2 := h i hi hai p this.1
          rw [length_shiftSupercell]
          exact h2
        · rw [getD_set_ne (fun h2 => hik h2.symm)] at h1
          have h2 := h i hi hai p h1
          rw [length_shiftSupercell]
          exact h2
      · have h2 := hout p h1.1
        rw [length_shiftSupercell]
        exact h2
    · intro j haj
      have hjk : j ≠ k := fun h => by rw [h, hk] at haj; cases haj
      exact shiftSupercell_getD_of_ne_dest hjk fun p hp h2 => by
        have := (hout p hp).1
        rw [h2, haj] at this
        cases this
  · rw [shiftSupercell_of_ge hklt]
    exact ⟨h, fun _ _ => rfl⟩

theorem shiftFold_area (W C : Nat) {area : Nat → Bool} :
    ∀ (L : List Nat) (s : List SuperCell),
      (∀ k ∈ L, area k = true) → AreaClosed W area s →
      AreaClosed W area (L.foldl (shiftSupercell W C) s)
        ∧ (L.foldl (shiftSupercell W C) s).length = s.length
        ∧ (∀ j, area j = false →
            (L.foldl (shiftSupercell W C) s).getD j emptySC = s.getD j emptySC)
        ∧ allP (L.foldl (shiftSupercell W C) s) = allP s
  | [], s, _, h => ⟨h, rfl, fun _ _ => rfl, rfl⟩
  | k :: L, s, hL, h => by
    have hk : area k = true := hL k (List.mem_cons_self k L)
    have step := areaClosed_shiftSupercell (C := C) hk h
    have hstep_allP : allP (shiftSupercell W C s k) = allP s := by
      apply allP_shiftSupercell
      intro p hp
      by_cases hklt : k < s.length
      · exact (h k hklt hk p hp).2
      · have : s.getD k emptySC = emptySC := by
          rw [List.getD_eq_getElem?_getD, List.getElem?_eq_none (by omega)]
          rfl
        rw [this] at hp
        cases hp
    have ih := shiftFold_area W C L (shiftSupercell W C s k)
      (fun q hq => hL q (List.mem_cons_of_mem k hq)) step.1
    refine ⟨ih.1, ?_, ?_, ?_⟩
    · rw [List.foldl_cons] at *
      rw [ih.2.1, length_shiftSupercell]
    · intro j haj
      rw [List.foldl_cons, ih.2.2.1 j haj, step.2 j haj]
    · rw [List.foldl_cons, ih.2.2.2, hstep_allP]

/-! ## Area totals -/

theorem areaTotalFrom_split (area : Nat → Bool) :
    ∀ (s : List SuperCell) (i : Nat),
      areaTotalFrom area i s + areaTotalFrom (fun j => !area j) i s = totalLive s
  | [], _ => rfl
  | sc :: rest, i => by
    have ih := areaTotalFrom_split area rest (i + 1)
    simp only [areaTotalFrom, totalLive, List.map_cons, List.sum_cons] at ih ⊢
    by_cases h : area i <;> simp [h, countLive] <;> omega

theorem areaTotalFrom_congr (P : Nat → Bool) :
    ∀ (s t : List SuperCell) (i : Nat), s.length = t.length →
      (∀ k, k < s.length → P (i + k) = true → s.getD k emptySC = t.getD k emptySC) →
      areaTotalFrom P i s = areaTotalFrom P i t
  | [], [], _, _, _ => rfl
  | [], t :: ts, _, h, _ => by simp at h
  | s :: ss, [], _, h, _ => by simp at h
  | sc :: ss, tc :: ts, i, hlen, h => by
    have hhead : P i = true → sc = tc := by
      intro hP
      have := h 0 (by simp) (by simpa using hP)
      simpa using this
    have htail := areaTotalFrom_congr P ss ts (i + 1) (by simpa using hlen)
      (fun k hk hP => by
        have := h (k + 1) (by simpa using Nat.succ_lt_succ hk)
          (by rw [show i + (k + 1) = i + 1 + k by omega]; exact hP)
        simpa using this)
    simp only [areaTotalFrom, htail]
    by_cases hP : P i = true
    · rw [hhead hP]
    · rw [if_neg hP, if_neg hP]

/-! ## The pass structure -/

theorem mem_passes_bound {area : Nat → Bool} {stride n i : Nat}
    (h : i ∈ (passesOf area stride n).flatten) : area i = true ∧ i < n := by
  rcases List.mem_flatten.1 h with ⟨pass, hpass, hi⟩
  rcases List.mem_map.1 hpass with ⟨k, _, rfl⟩
  have := List.mem_filter.1 hi
  refine ⟨?_, List.mem_range.1 this.1⟩
  have h2 := this.2
  simp only [Bool.and_eq_true, beq_iff_eq] at h2
  exact h2.1

theorem mem_passes_of_area {area : Nat → Bool} {stride n i : Nat}
    (hstride : 0 < stride) (hi : i < n) (ha : area i = true) :
    i ∈ (passesOf area stride n).flatten := by
  apply List.mem_flatten.2
  refine ⟨passIndices area stride n (i % stride), ?_, ?_⟩
  · exact List.mem_map.2 ⟨i % stride, List.mem_range.2 (Nat.mod_lt i hstride), rfl⟩
  · exact List.mem_filter.2 ⟨List.mem_range.2 hi, by simp [ha]⟩

theorem shiftParticlesWith_some {W C stride : Nat} {area : Nat → Bool}
    {s s' : List SuperCell} {ds : List (List Nat)}
    (h : shiftParticlesWith W C area stride s = some (s', ds)) :
    3 ≤ stride ∧ s' = ((passesOf area stride s.length).flatten).foldl (shiftSupercell W C) s
      ∧ ds = passesOf area stride s.length := by
  by_cases hst : stride < 3
  · rw [shiftParticlesWith, if_pos hst] at h
    cases h
  · rw [shiftParticlesWith, if_neg hst] at h
    have h2 := Option.some.inj h
    exact ⟨by omega, (congrArg Prod.fst h2).symm, (congrArg Prod.snd h2).symm⟩

/-! ## Correct placement after the shift -/

theorem getD_of_ge {s : List SuperCell} {i : Nat} {e : SuperCell} (h : s.length ≤ i) :
    s.getD i e = e := by
  rw [List.getD_eq_getElem?_getD, List.getElem?_eq_none h]
  rfl

theorem length_shiftFold (W C : Nat) :
    ∀ (L : List Nat) (s : List SuperCell),
      (L.foldl (shiftSupercell W C) s).length = s.length
  | [], _ => rfl
  | k :: L, s => by
    rw [List.foldl_cons, length_shiftFold W C L, length_shiftSupercell]

theorem placedOn_mono {W : Nat} {Q Q' : Nat → Prop} {s : List SuperCell}
    (hQ : ∀ i, Q' i → Q i) (h : PlacedOn W Q s) : PlacedOn W Q' s :=
  fun i hi => h i (hQ i hi)

theorem placedOn_shiftSupercell {W C k : Nat} {Q : Nat → Prop} {s : List SuperCell}
    (h : PlacedOn W Q s) :
    PlacedOn W (fun i => i = k ∨ Q i) (shiftSupercell W C s k) := by
  intro i hi p hp
  by_cases hk : k < s.length
  · rw [shiftSupercell_of_lt hk] at hp
    rcases mem_depositAll_getD W C _ _ i p hp with h1 | h1
    · by_cases hik : i = k
      · subst hik
        rw [getD_set_self hk] at h1
        exact (mem_holedCell W i _ h1).2
      · rw [getD_set_ne (fun h2 => hik h2.symm)] at h1
        rcases hi with hi | hi
        · exact absurd hi hik
        · exact h i hi p h1
    · exact h1.2
  · rw [shiftSupercell_of_ge hk] at hp
    rcases hi with hi | hi
    · subst hi
      rw [getD_of_ge (by omega)] at hp
      cases hp
    · exact h i hi p hp

theorem placedOn_shiftFold (W C : Nat) {Q : Nat → Prop} :
    ∀ (L : List Nat) (s : List SuperCell), PlacedOn W Q s →
      PlacedOn W (fun i => i ∈ L ∨ Q i) (L.foldl (shiftSupercell W C) s)
  | [], s, h => fun i hi => h i (hi.resolve_left (by simp))
  | k :: L, s, h => by
    rw [List.foldl_cons]
    have step := placedOn_shiftSupercell (C := C) (k := k) h
    have ih := placedOn_shiftFold W C L (shiftSupercell W C s k) step
    refine placedOn_mono ?_ ih
    intro i hi
    rcases hi with hi | hi
    · rcases List.mem_cons.1 hi with hi | hi
      · exact Or.inr (Or.inl hi)
      · exact Or.inl hi
    · exact Or.inr (Or.inr hi)

theorem cellOf_bounds {W j : Nat} {p : Particle} (hW : 0 < W) (h : cellOf W p = j) :
    j * W ≤ p.pos ∧ p.pos < (j + 1) * W := by
  have e := Nat.div_add_mod p.pos W
  have hm := Nat.mod_lt p.pos hW
  rw [show p.pos / W = j from h] at e
  constructor
  · calc j * W = W * j := mul_comm j W
      _ ≤ W * j + p.pos % W := Nat.le_add_right _ _
      _ = p.pos := e
  · calc p.pos = W * j + p.pos % W := e.symm
      _ < W * j + W := Nat.add_lt_add_left hm _
      _ = (j + 1) * W := by ring

/-! ## The Gap Filler: compaction and idempotence -/

theorem chunkAux_congr (C : Nat) :
    ∀ (fuel1 fuel2 : Nat) (l : List Particle), l.length ≤ fuel1 → l.length ≤ fuel2 →
      chunkAux C fuel1 l = chunkAux C fuel2 l
  | 0, 0, _, _, _ => rfl
  | 0, _ + 1, l, h1, _ => by
    have : l = [] := List.eq_nil_of_length_eq_zero (by omega)
    subst this
    rfl
  | _ + 1, 0, l, _, h2 => by
    have : l = [] := List.eq_nil_of_length_eq_zero (by omega)
    subst this
    rfl
  | _ + 1, _ + 1, [], _, _ => rfl
  | fuel1 + 1, fuel2 + 1, x :: xs, h1, h2 => by
    simp only [chunkAux]
    rw [chunkAux_congr C fuel1 fuel2 (xs.drop (C - 1))
      (by simp only [List.length_drop]; simp at h1; omega)
      (by simp only [List.length_drop]; simp at h2; omega)]

theorem chunk_cons (C : Nat) (x : Particle) (xs : List Particle) :
    chunk C (x :: xs) = (x :: xs.take (C - 1)) :: chunk C (xs.drop (C - 1)) := by
  show chunkAux C (xs.length + 1) (x :: xs) = _
  simp only [chunkAux]
  rw [chunkAux_congr C xs.length (xs.drop (C - 1)).length (xs.drop (C - 1))
    (by simp only [List.length_drop]; omega) (le_refl _)]
  rfl

theorem chunk_flatten (C : Nat) : ∀ l : List Particle, (chunk C l).flatten = l
  | [] => rfl
  | x :: xs => by
    rw [chunk_cons]
    have ih := chunk_flatten C (xs.drop (C - 1))
    simp only [List.flatten_cons, ih, List.cons_append, List.take_append_drop]
termination_by l => l.length
decreasing_by
  simp only [List.length_drop, List.length_cons]
  omega

theorem length_of_mem_chunk {C : Nat} (hC : 0 < C) :
    ∀ (l : List Particle) (f : List Particle), f ∈ chunk C l → f.length ≤ C
  | [], f => by intro h; cases h
  | x :: xs, f => by
    intro h
    rw [chunk_cons] at h
    rcases List.mem_cons.1 h with h1 | h1
    · subst h1
      simp only [List.length_cons, List.length_take]
      omega
    · exact length_of_mem_chunk hC (xs.drop (C - 1)) f h1
termination_by l => l.length
decreasing_by
  simp only [List.length_drop, List.length_cons]
  omega

theorem length_of_mem_dropLast_chunk {C : Nat} (hC : 0 < C) :
    ∀ (l : List Particle) (f : List Particle), f ∈ (chunk C l).dropLast → f.length = C
  | [], f => by intro h; cases h
  | x :: xs, f => by
    intro h
    rw [chunk_cons] at h
    cases hd : chunk C (xs.drop (C - 1)) with
    | nil => rw [hd] at h; simp at h
    | cons c cs =>
      rw [hd, List.dropLast_cons_of_ne_nil (by simp)] at h
      rcases List.mem_cons.1 h with h1 | h1
      · have hne : xs.drop (C - 1) ≠ [] := by
          intro h0
          rw [h0] at hd
          cases hd
        have hlen : C - 1 < xs.length := by
          by_contra hle
          push_neg at hle
          exact hne (List.drop_eq_nil_of_le hle)
        subst h1
        simp only [List.length_cons, List.length_take]
        omega
      · rw [← hd] at h1
        exact length_of_mem_dropLast_chunk hC (xs.drop (C - 1)) f h1
termination_by l => l.length
decreasing_by
  simp only [List.length_drop, List.length_cons]
  omega

theorem scLive_fillGapsSupercell (C : Nat) (sc : SuperCell) :
    scLive (fillGapsSupercell C sc) = scLive sc := by
  show ((chunk C (scLive sc)).map (List.map some)).flatten.filterMap id = scLive sc
  rw [show ((chunk C (scLive sc)).map (List.map some)).flatten
      = (chunk C (scLive sc)).flatten.map some from (List.map_flatten some _).symm,
    chunk_flatten, List.filterMap_map]
  exact List.filterMap_some _

theorem fillGapsSupercell_idem (C : Nat) (sc : SuperCell) :
    fillGapsSupercell C (fillGapsSupercell C sc) = fillGapsSupercell C sc := by
  show ({ frames := (chunk C (scLive (fillGapsSupercell C sc))).map (List.map some),
          numParticles := (scLive (fillGapsSupercell C sc)).length } : SuperCell)
      = fillGapsSupercell C sc
  rw [scLive_fillGapsSupercell]
  rfl

theorem fillGapsFrom_idem (C : Nat) (area : Nat → Bool) :
    ∀ (s : List SuperCell) (i : Nat),
      fillGapsFrom C area i (fillGapsFrom C area i s) = fillGapsFrom C area i s
  | [], _ => rfl
  | sc :: rest, i => by
    by_cases h : area i
    · simp only [fillGapsFrom, h, if_true, fillGapsSupercell_idem,
        fillGapsFrom_idem C area rest (i + 1)]
    · simp only [fillGapsFrom, fillGapsFrom_idem C area rest (i + 1)]
      rw [if_neg h, if_neg h]

theorem mem_fillGapsFrom_all (C : Nat) :
    ∀ (s : List SuperCell) (i : Nat) (sc : SuperCell),
      sc ∈ fillGapsFrom C (fun _ => true) i s → ∃ sc0 ∈ s, sc = fillGapsSupercell C sc0
  | [], _, _, h => by cases h
  | sc1 :: rest, i, sc, h => by
    simp only [fillGapsFrom, if_true] at h
    rcases List.mem_cons.1 h with h1 | h1
    · exact ⟨sc1, List.mem_cons_self _ _, h1⟩
    · rcases mem_fillGapsFrom_all C rest (i + 1) sc h1 with ⟨sc0, hm, he⟩
      exact ⟨sc0, List.mem_cons_of_mem _ hm, he⟩

theorem mem_fillAllGaps {C : Nat} {s : List SuperCell} {sc : SuperCell}
    (h : sc ∈ fillAllGaps C s) : ∃ sc0 ∈ s, sc = fillGapsSupercell C sc0 :=
  mem_fillGapsFrom_all C s 0 sc h

theorem isCompact_fillGapsSupercell {C : Nat} (hC : 0 < C) (sc : SuperCell) :
    IsCompact C (fillGapsSupercell C sc) := by
  constructor
  · intro f hf
    have : (fillGapsSupercell C sc).frames.dropLast
        = ((chunk C (scLive sc)).dropLast).map (List.map some) := by
      show ((chunk C (scLive sc)).map (List.map some)).dropLast = _
      exact (List.map_dropLast _ _).symm
    rw [this] at hf
    rcases List.mem_map.1 hf with ⟨c, hc, rfl⟩
    rw [List.length_map]
    exact length_of_mem_dropLast_chunk hC _ c hc
  · intro f hf
    rcases List.mem_map.1 hf with ⟨c, hc, rfl⟩
    constructor
    · rw [List.length_map]
      exact length_of_mem_chunk hC _ c hc
    · intro sl hsl
      rcases List.mem_map.1 hsl with ⟨p, _, rfl⟩
      simp

/-! ## Guard Exchange -/

theorem zeroGuardFrom_frames (guard : Nat → Bool) :
    ∀ (s : List SuperCell) (i j : Nat),
      ((zeroGuardFrom guard i s).getD j emptySC).frames = (s.getD j emptySC).frames
  | [], _, _ => rfl
  | sc :: rest, i, j => by
    cases j with
    | zero =>
      simp only [zeroGuardFrom, List.getD_cons_zero]
      by_cases h : guard i <;> simp [h]
    | succ j =>
      simp only [zeroGuardFrom, List.getD_cons_succ]
      exact zeroGuardFrom_frames guard rest (i + 1) j

theorem zeroGuardFrom_num (guard : Nat → Bool) :
    ∀ (s : List SuperCell) (i j : Nat), guard (i + j) = true →
      ((zeroGuardFrom guard i s).getD j emptySC).numParticles = 0
  | [], _, _, _ => rfl
  | sc :: rest, i, j, h => by
    cases j with
    | zero =>
      simp only [Nat.add_zero] at h
      simp only [zeroGuardFrom, List.getD_cons_zero, h, if_true]
    | succ j =>
      simp only [zeroGuardFrom, List.getD_cons_succ]
      exact zeroGuardFrom_num guard rest (i + 1) j
        (by rw [show i + 1 + j = i + (j + 1) by omega]; exact h)

theorem mem_guardLiveFrom (elig : Particle → Bool) (guard : Nat → Bool) :
    ∀ (s : List SuperCell) (i j : Nat) (p : Particle), j < s.length →
      guard (i + j) = true → p ∈ scLive (s.getD j emptySC) → elig p = true →
      p ∈ guardLiveFrom elig guard i s
  | [], _, j, _, hj, _, _, _ => by simp at hj
  | sc :: rest, i, j, p, hj, hg, hp, he => by
    cases j with
    | zero =>
      simp only [Nat.add_zero] at hg
      simp only [List.getD_cons_zero] at hp
      simp only [guardLiveFrom, hg, if_true]
      exact List.mem_append.2 (Or.inl (List.mem_filter.2 ⟨hp, he⟩))
    | succ j =>
      simp only [List.getD_cons_succ] at hp
      refine List.mem_append.2 (Or.inr ?_)
      exact mem_guardLiveFrom elig guard rest (i + 1) j p (by simpa using hj)
        (by rw [show i + 1 + j = i + (j + 1) by omega]; exact hg) hp he

theorem guardLiveFrom_of_gt (elig : Particle → Bool) (g : Nat) :
    ∀ (s : List SuperCell) (i : Nat), g < i →
      guardLiveFrom elig (fun x => x == g) i s = []
  | [], _, _ => rfl
  | sc :: rest, i, h => by
    have hig : (i == g) = false := by simp; omega
    simp only [guardLiveFrom, hig, if_false, List.nil_append]
    exact guardLiveFrom_of_gt elig g rest (i + 1) (by omega)

theorem guardLiveFrom_singleton (elig : Particle → Bool) (g : Nat) :
    ∀ (s : List SuperCell) (i : Nat), i ≤ g →
      guardLiveFrom elig (fun x => x == g) i s
        = (scLive (s.getD (g - i) emptySC)).filter elig
  | [], i, _ => by simp [guardLiveFrom, scLive, emptySC]
  | sc :: rest, i, h => by
    by_cases hig : i = g
    · subst hig
      have : (i == i) = true := by simp
      simp only [guardLiveFrom, this, if_true, Nat.sub_self, List.getD_cons_zero,
        guardLiveFrom_of_gt elig i rest (i + 1) (by omega), List.append_nil]
    · have hlt : i < g := lt_of_le_of_ne h hig
      have hig2 : (i == g) = false := by simp; omega
      have hsub : g - i = (g - (i + 1)) + 1 := by omega
      simp only [guardLiveFrom, hig2, if_false, List.nil_append, hsub, List.getD_cons_succ]
      exact guardLiveFrom_singleton elig g rest (i + 1) (by omega)

theorem depositAll_num (W C j : Nat) :
    ∀ (ps : List Particle) (s : List SuperCell), j < s.length → (∀ p ∈ ps, cellOf W p = j) →
      ((depositAll W C ps s).getD j emptySC).numParticles
        = (s.getD j emptySC).numParticles + ps.length
  | [], s, _, _ => rfl
  | p :: ps, s, hj, h => by
    have hd : cellOf W p = j := h p (List.mem_cons_self p ps)
    rw [depositAll_cons, if_pos (hd ▸ hj : cellOf W p < s.length)]
    rw [depositAll_num W C j ps _ (by rw [List.length_set]; exact hj)
      (fun q hq => h q (List.mem_cons_of_mem p hq))]
    rw [hd, getD_set_self hj, num_append]
    simp only [List.length_cons]
    omega

/-! ## Stride safety -/

theorem mem_passIndices {area : Nat → Bool} {stride n k i : Nat}
    (h : i ∈ passIndices area stride n k) : i % stride = k ∧ i < n ∧ area i = true := by
  have h2 := List.mem_filter.1 h
  have h3 := h2.2
  simp only [Bool.and_eq_true, beq_iff_eq] at h3
  exact ⟨h3.2, List.mem_range.1 h2.1, h3.1⟩

theorem not_adjacent_of_same_pass {area : Nat → Bool} {stride n k i j : Nat}
    (h3 : 3 ≤ stride) (hi : i ∈ passIndices area stride n k)
    (hj : j ∈ passIndices area stride n k) (hne : i ≠ j) : ¬ scAdjacent i j := by
  rintro ⟨-, h1, h2⟩
  have hmi := (mem_passIndices hi).1
  have hmj := (mem_passIndices hj).1
  rcases Nat.lt_or_ge i j with hlt | hge
  · have hmod : i ≡ j [MOD stride] := by
      unfold Nat.ModEq
      rw [hmi, hmj]
    have hdvd := (Nat.modEq_iff_dvd' (Nat.le_of_lt hlt)).1 hmod
    have := Nat.le_of_dvd (by omega) hdvd
    omega
  · have hlt : j < i := by omega
    have hmod : j ≡ i [MOD stride] := by
      unfold Nat.ModEq
      rw [hmi, hmj]
    have hdvd := (Nat.modEq_iff_dvd' (Nat.le_of_lt hlt)).1 hmod
    have := Nat.le_of_dvd (by omega) hdvd
    omega

theorem stride_pass_not_adjacent {d stride : Nat} (h3 : 3 ≤ stride)
    {off a b : Fin d → Int} (ha : inStridePass d stride off a)
    (hb : inStridePass d stride off b) (hne : a ≠ b) : ¬ mooreAdjacent d a b := by
  rintro ⟨-, hax⟩
  rcases Function.ne_iff.1 hne with ⟨ax, hax0⟩
  have hdvd : (stride : Int) ∣ (a ax - b ax) := by
    have := dvd_sub (ha ax) (hb ax)
    simpa using this
  have hn0 : a ax - b ax ≠ 0 := sub_ne_zero.2 hax0
  have habs : (stride : Int) ≤ |a ax - b ax| :=
    Int.le_of_dvd (abs_pos.2 hn0) ((dvd_abs _ _).2 hdvd)
  have := hax ax
  have h3' : (3 : Int) ≤ (stride : Int) := by exact_mod_cast h3
  omega

/-! ## Frame capacity -/

theorem appendToFrames_WF {C : Nat} (hC : 0 < C) (p : Particle) :
    ∀ fs : List Frame, (∀ f ∈ fs, f.length ≤ C) →
      ∀ f ∈ appendToFrames C p fs, f.length ≤ C
  | [], _, f, hf => by
    simp only [appendToFrames, List.mem_singleton] at hf
    subst hf
    simpa using hC
  | [g], h, f, hf => by
    by_cases hg : g.length < C
    · simp only [appendToFrames, hg, if_true, List.mem_singleton] at hf
      subst hf
      simp only [List.length_append, List.length_singleton]
      omega
    · simp only [appendToFrames, hg, if_false, List.mem_cons, List.mem_singleton] at hf
      rcases hf with hf | hf | hf
      · subst hf
        exact h f (List.mem_singleton.2 rfl)
      · subst hf
        simpa using hC
      · cases hf
  | g :: g2 :: rest, h, f, hf => by
    simp only [appendToFrames, List.mem_cons] at hf
    rcases hf with hf | hf
    · subst hf
      exact h f (List.mem_cons_self _ _)
    · exact appendToFrames_WF hC p (g2 :: rest)
        (fun f2 hf2 => h f2 (List.mem_cons_of_mem g hf2)) f hf

theorem framesWF_getD {C : Nat} {s : List SuperCell} (h : FramesWF C s) (i : Nat) :
    ∀ f ∈ (s.getD i emptySC).frames, f.length ≤ C := by
  by_cases hi : i < s.length
  · have : s.getD i emptySC = s[i] := by
      rw [List.getD_eq_getElem?_getD, List.getElem?_eq_getElem hi]
      rfl
    rw [this]
    exact h s[i] (List.getElem_mem hi)
  · rw [getD_of_ge (by omega)]
    intro f hf
    cases hf

theorem framesWF_set {C : Nat} {s : List SuperCell} {i : Nat} {x : SuperCell}
    (h : FramesWF C s) (hx : ∀ f ∈ x.frames, f.length ≤ C) : FramesWF C (s.set i x) := by
  intro sc hsc
  rcases List.mem_or_eq_of_mem_set hsc with h1 | h1
  · exact h sc h1
  · subst h1
    exact hx

theorem framesWF_depositAll {W C : Nat} (hC : 0 < C) :
    ∀ (ps : List Particle) (s : List SuperCell), FramesWF C s →
      FramesWF C (depositAll W C ps s)
  | [], s, h => h
  | p :: ps, s, h => by
    rw [depositAll_cons]
    by_cases hp : cellOf W p < s.length
    · rw [if_pos hp]
      refine framesWF_depositAll hC ps _ (framesWF_set h ?_)
      exact appendToFrames_WF hC p _ (framesWF_getD h _)
    · rw [if_neg hp]
      exact framesWF_depositAll hC ps s h

theorem framesWF_shiftSupercell {W C : Nat} (hC : 0 < C) {s : List SuperCell} (i : Nat)
    (h : FramesWF C s) : FramesWF C (shiftSupercell W C s i) := by
  by_cases hi : i < s.length
  · rw [shiftSupercell_of_lt hi]
    refine framesWF_depositAll hC _ _ (framesWF_set h ?_)
    intro f hf
    rcases List.mem_map.1 hf with ⟨f0, hf0, rfl⟩
    rw [holeOut, List.length_map]
    exact framesWF_getD h i f0 hf0
  · rw [shiftSupercell_of_ge hi]
    exact h

theorem framesWF_shiftFold {W C : Nat} (hC : 0 < C) :
    ∀ (L : List Nat) (s : List SuperCell), FramesWF C s →
      FramesWF C (L.foldl (shiftSupercell W C) s)
  | [], _, h => h
  | k :: L, s, h => by
    rw [List.foldl_cons]
    exact framesWF_shiftFold hC L _ (framesWF_shiftSupercell hC k h)

theorem framesWF_fillGapsSupercell {C : Nat} (hC : 0 < C) (sc : SuperCell) :
    ∀ f ∈ (fillGapsSupercell C sc).frames, f.length ≤ C := by
  intro f hf
  rcases List.mem_map.1 hf with ⟨c, hc, rfl⟩
  rw [List.length_map]
  exact length_of_mem_chunk hC _ c hc

theorem framesWF_fillGapsFrom {C : Nat} (hC : 0 < C) (area : Nat → Bool) :
    ∀ (s : List SuperCell) (i : Nat), FramesWF C s → FramesWF C (fillGapsFrom C area i s)
  | [], _, _ => fun sc hsc => by cases hsc
  | sc1 :: rest, i, h => by
    intro sc hsc
    simp only [fillGapsFrom, List.mem_cons] at hsc
    rcases hsc with hsc | hsc
    · subst hsc
      by_cases ha : area i
      · rw [if_pos ha]
        exact framesWF_fillGapsSupercell hC sc1
      · rw [if_neg ha]
        exact h sc1 (List.mem_cons_self _ _)
    · exact framesWF_fillGapsFrom hC area rest (i + 1)
        (fun q hq => h q (List.mem_cons_of_mem _ hq)) sc hsc

theorem framesWF_zeroGuardFrom {C : Nat} (guard : Nat → Bool) :
    ∀ (s : List SuperCell) (i : Nat), FramesWF C s → FramesWF C (zeroGuardFrom guard i s)
  | [], _, _ => fun sc hsc => by cases hsc
  | sc1 :: rest, i, h => by
    intro sc hsc
    simp only [zeroGuardFrom, List.mem_cons] at hsc
    rcases hsc with hsc | hsc
    · subst hsc
      by_cases ha : guard i
      · rw [if_pos ha]
        exact h sc1 (List.mem_cons_self _ _)
      · rw [if_neg ha]
        exact h sc1 (List.mem_cons_self _ _)
    · exact framesWF_zeroGuardFrom guard rest (i + 1)
        (fun q hq => h q (List.mem_cons_of_mem _ hq)) sc hsc

theorem framesWF_deleteGuardFrom {C : Nat} (guard : Nat → Bool) :
    ∀ (s : List SuperCell) (i : Nat), FramesWF C s → FramesWF C (deleteGuardFrom guard i s)
  | [], _, _ => fun sc hsc => by cases hsc
  | sc1 :: rest, i, h => by
    intro sc hsc
    simp only [deleteGuardFrom, List.mem_cons] at hsc
    rcases hsc with hsc | hsc
    · subst hsc
      by_cases ha : guard i
      · rw [if_pos ha]
        intro f hf
        cases hf
      · rw [if_neg ha]
        exact h sc1 (List.mem_cons_self _ _)
    · exact framesWF_deleteGuardFrom guard rest (i + 1)
        (fun q hq => h q (List.mem_cons_of_mem _ hq)) sc hsc

theorem appendToFrames_full (C : Nat) (p : Particle) :
    ∀ (fs : List Frame) (f : Frame), fs.getLast? = some f → C ≤ f.length →
      appendToFrames C p fs = fs ++ [[some p]]
  | [], f, h, _ => by cases h
  | [g], f, h, hC => by
    have hg : g = f := by
      rw [List.getLast?_singleton] at h
      exact Option.some.inj h
    subst hg
    simp only [appendToFrames, if_neg (by omega : ¬ g.length < C)]
    rfl
  | g :: g2 :: rest, f, h, hC => by
    rw [List.getLast?_cons_cons] at h
    simp only [appendToFrames, List.cons_append]
    rw [appendToFrames_full C p (g2 :: rest) f h hC]
    simp

theorem reach_framesWF {W C : Nat} {b : PBuffer} (hC : 0 < C) (h : Reach W C b) :
    FramesWF C b.supercells := by
  induction h with
  | init dim n =>
    intro sc hsc
    have := List.eq_of_mem_replicate hsc
    subst this
    intro f hf
    cases hf
  | append b i p _ ih =>
    show FramesWF C (appendAt C i p b.supercells)
    rw [appendAt]
    by_cases hi : i < b.supercells.length
    · rw [if_pos hi]
      exact framesWF_set ih (appendToFrames_WF hC p _ (framesWF_getD ih _))
    · rw [if_neg hi]
      exact ih
  | recv b D ps _ ih => exact ih
  | shift b area stride s' ds _ hrun ih =>
    have h2 := shiftParticlesWith_some hrun
    show FramesWF C s'
    rw [h2.2.1]
    exact framesWF_shiftFold hC _ _ ih
  | fill b area _ ih => exact framesWF_fillGapsFrom hC area _ 0 ih
  | delGuard b guard _ ih => exact framesWF_deleteGuardFrom guard _ 0 ih
  | copyGuard b elig guard D _ ih => exact framesWF_zeroGuardFrom guard _ 0 ih
  | insert b D _ ih => exact framesWF_depositAll hC _ _ ih
  | reset b _ _ =>
    intro sc hsc
    rcases List.mem_map.1 hsc with ⟨_, _, rfl⟩
    intro f hf
    cases hf

/-! ## The claims -/

/-- Claim C1: for every region (area) and every particle motion in which
no particle leaves the region, the total live particle count summed over
the region's supercells is the same before and after `shiftParticles`
completes all its passes — migration alone neither creates nor destroys
particles. -/
theorem shiftParticles_conserves_region_count (W C stride : Nat) (area : Nat → Bool)
    (s s' : List SuperCell) (ds : List (List Nat))
    (hA : AreaClosed W area s)
    (hrun : shiftParticlesWith W C area stride s = some (s', ds)) :
    areaTotal area s' = areaTotal area s := by
  obtain ⟨h3, hs', hds⟩ := shiftParticlesWith_some hrun
  have hLarea : ∀ k ∈ (passesOf area stride s.length).flatten, area k = true :=
    fun k hk => (mem_passes_bound hk).1
  have fold := shiftFold_area W C ((passesOf area stride s.length).flatten) s hLarea hA
  rw [hs']
  set t := ((passesOf area stride s.length).flatten).foldl (shiftSupercell W C) s with ht
  have htot : totalLive t = totalLive s := by
    rw [← card_allP, ← card_allP, fold.2.2.2]
  have hcompl : areaTotalFrom (fun j => !area j) 0 t = areaTotalFrom (fun j => !area j) 0 s := by
    apply areaTotalFrom_congr (fun j => !area j) t s 0 fold.2.1
    intro k hk hP
    have hak : area k = false := by simpa using hP
    exact fold.2.2.1 k hak
  have h1 := areaTotalFrom_split area t 0
  have h2 := areaTotalFrom_split area s 0
  show areaTotalFrom area 0 t = areaTotalFrom area 0 s
  omega

theorem shiftParticles_conserves_region_count_witness :
    areaTotal (fun _ => true)
        [({ frames := [[some { pos := 0, attr := 0 }]], numParticles := 1 } : SuperCell)]
      = areaTotal (fun _ => true)
        [({ frames := [[some { pos := 0, attr := 0 }]], numParticles := 1 } : SuperCell)] :=
  shiftParticles_conserves_region_count 1 1 3 (fun _ => true)
    [({ frames := [[some { pos := 0, attr := 0 }]], numParticles := 1 } : SuperCell)]
    [({ frames := [[some { pos := 0, attr := 0 }]], numParticles := 1 } : SuperCell)]
    [[0], [], []]
    (by unfold AreaClosed; decide) (by decide)

/-- Claim C2: after `shiftParticles` has run to full coverage of the
mapped region (stride-spaced passes until the region is covered), every
particle stored in a region supercell has its recorded position inside
the spatial bounds of that supercell, under the precondition that each
particle moved at most one supercell. -/
theorem shiftParticles_places_particles (W C stride : Nat) (area : Nat → Bool)
    (s s' : List SuperCell) (ds : List (List Nat)) (hW : 0 < W)
    (_hhop : ∀ i, i < s.length → ∀ p ∈ scLive (s.getD i emptySC),
      i ≤ cellOf W p + 1 ∧ cellOf W p ≤ i + 1)
    (hrun : shiftParticlesWith W C area stride s = some (s', ds)) :
    ∀ j, j < s'.length → area j = true → ∀ p ∈ scLive (s'.getD j emptySC),
      j * W ≤ p.pos ∧ p.pos < (j + 1) * W := by
  obtain ⟨h3, hs', hds⟩ := shiftParticlesWith_some hrun
  intro j hj ha p hp
  have hlen : s'.length = s.length := by rw [hs', length_shiftFold]
  have hjn : j < s.length := hlen ▸ hj
  have hcov : j ∈ (passesOf area stride s.length).flatten :=
    mem_passes_of_area (by omega) hjn ha
  have placed := placedOn_shiftFold W C (Q := fun _ => False)
    ((passesOf area stride s.length).flatten) s (fun i hi => absurd hi id)
  have hdest : cellOf W p = j := by
    apply placed j (Or.inl hcov) p
    rw [← hs']
    exact hp
  exact cellOf_bounds hW hdest

theorem shiftParticles_places_particles_witness :
    0 * 1 ≤ ({ pos := 0, attr := 0 } : Particle).pos
      ∧ ({ pos := 0, attr := 0 } : Particle).pos < (0 + 1) * 1 :=
  shiftParticles_places_particles 1 1 3 (fun _ => true)
    [({ frames := [[some { pos := 0, attr := 0 }]], numParticles := 1 } : SuperCell)]
    [({ frames := [[some { pos := 0, attr := 0 }]], numParticles := 1 } : SuperCell)]
    [[0], [], []]
    (by decide) (by decide) (by decide) 0 (by decide) rfl
    ({ pos := 0, attr := 0 } : Particle) (by decide)

/-- Claim C3: after `fillAllGaps`, every supercell of the complete area
(CORE, BORDER and GUARD, i.e. the whole table) satisfies the compaction
invariant: all frames full from the head except possibly the last,
which holds its particles contiguously from its first slot, and no
frame contains an internal hole. -/
theorem fillAllGaps_compacts (C : Nat) (s : List SuperCell) (hC : 0 < C) :
    ∀ sc ∈ fillAllGaps C s, IsCompact C sc := by
  intro sc hsc
  rcases mem_fillAllGaps hsc with ⟨sc0, -, rfl⟩
  exact isCompact_fillGapsSupercell hC sc0

theorem fillAllGaps_compacts_witness :
    0 < 2 ∧ IsCompact 2
      ({ frames := [[some { pos := 0, attr := 0 }, some { pos := 1, attr := 0 }]],
         numParticles := 2 } : SuperCell) :=
  ⟨by decide,
    fillAllGaps_compacts 2
      [({ frames := [[some { pos := 0, attr := 0 }, none], [some { pos := 1, attr := 0 }]],
          numParticles := 5 } : SuperCell)] (by decide)
      ({ frames := [[some { pos := 0, attr := 0 }, some { pos := 1, attr := 0 }]],
         numParticles := 2 } : SuperCell) (by decide)⟩

/-- Claim C4: `fillAllGaps` is idempotent — running it twice yields the
same buffer state as running it once (in particular a second run on an
already compacted table changes nothing). -/
theorem fillAllGaps_idem (C : Nat) (s : List SuperCell) :
    fillAllGaps C (fillAllGaps C s) = fillAllGaps C s :=
  fillGapsFrom_idem C (fun _ => true) s 0

/-- Claim C5: `copyGuardToExchange` copies every (exchange-eligible)
particle of the GUARD supercells of the direction into that direction's
exchange buffer, resets the live counter of each processed supercell to
zero unconditionally — whatever the eligibility of the particles — and
leaves every supercell's frames untouched (hence not necessarily
compact). -/
theorem copyGuardToExchange_resets_counts (elig : Particle → Bool) (guard : Nat → Bool)
    (D : Nat) (b : PBuffer) (hD : D < b.exchanges.length) :
    (∀ j, guard j = true →
      ((copyGuardToExchange elig guard D b).supercells.getD j emptySC).numParticles = 0)
    ∧ (∀ j, ((copyGuardToExchange elig guard D b).supercells.getD j emptySC).frames
        = (b.supercells.getD j emptySC).frames)
    ∧ (∀ j, j < b.supercells.length → guard j = true →
        ∀ p ∈ scLive (b.supercells.getD j emptySC), elig p = true →
          p ∈ (copyGuardToExchange elig guard D b).exchanges.getD D []) := by
  refine ⟨?_, ?_, ?_⟩
  · intro j hg
    exact zeroGuardFrom_num guard b.supercells 0 j (by simpa using hg)
  · intro j
    exact zeroGuardFrom_frames guard b.supercells 0 j
  · intro j hj hg p hp he
    show p ∈ (b.exchanges.set D
      (b.exchanges.getD D [] ++ guardLiveFrom elig guard 0 b.supercells)).getD D []
    rw [getD_set_self hD]
    exact List.mem_append.2
      (Or.inr (mem_guardLiveFrom elig guard b.supercells 0 j p hj (by simpa using hg) hp he))

theorem copyGuardToExchange_resets_counts_witness :
    ((copyGuardToExchange (fun _ => true) (fun _ => true) 0
        ({ supercells := [{ frames := [[some { pos := 5, attr := 1 }]], numParticles := 1 }],
           exchanges := [[]] } : PBuffer)).supercells.getD 0 emptySC).numParticles = 0 :=
  (copyGuardToExchange_resets_counts (fun _ => true) (fun _ => true) 0
    ({ supercells := [{ frames := [[some { pos := 5, attr := 1 }]], numParticles := 1 }],
       exchanges := [[]] } : PBuffer) (by decide)).1 0 rfl

/-- Claim C6: guard round-trip — for a supercell holding `N` particles
in the GUARD of direction `D`, `copyGuardToExchange D` places exactly
`N` particles in `D`'s exchange buffer and zeroes that supercell's live
counter; a subsequent `insertParticles D` on a partition whose `D`
buffer holds those `N` particles (all destined for one receiving
supercell) increases the receiving supercell's live counter by exactly
`N` and leaves the exchange buffer empty. -/
theorem guard_exchange_roundtrip (W C D g j N : Nat) (b b2 : PBuffer)
    (hD : D < b.exchanges.length)
    (hEx : b.exchanges.getD D [] = [])
    (hN : (scLive (b.supercells.getD g emptySC)).length = N)
    (hD2 : D < b2.exchanges.length)
    (hps : ∀ p ∈ b2.exchanges.getD D [], cellOf W p = j)
    (hlen : (b2.exchanges.getD D []).length = N)
    (hj : j < b2.supercells.length) :
    ((copyGuardToExchange (fun _ => true) (fun x => x == g) D b).exchanges.getD D []).length = N
    ∧ ((copyGuardToExchange (fun _ => true) (fun x => x == g) D b).supercells.getD
        g emptySC).numParticles = 0
    ∧ ((insertParticles W C D b2).supercells.getD j emptySC).numParticles
        = (b2.supercells.getD j emptySC).numParticles + N
    ∧ (insertParticles W C D b2).exchanges.getD D [] = [] := by
  refine ⟨?_, ?_, ?_, ?_⟩
  · show ((b.exchanges.set D
      (b.exchanges.getD D [] ++ guardLiveFrom (fun _ => true) (fun x => x == g) 0
        b.supercells)).getD D []).length = N
    rw [getD_set_self hD, hEx, List.nil_append,
      guardLiveFrom_singleton (fun _ => true) g b.supercells 0 (Nat.zero_le g)]
    simp only [Nat.sub_zero, List.filter_true]
    exact hN
  · exact zeroGuardFrom_num (fun x => x == g) b.supercells 0 g (by simp)
  · show ((depositAll W C (b2.exchanges.getD D []) b2.supercells).getD j
        emptySC).numParticles = _
    rw [depositAll_num W C j _ _ hj hps, hlen]
  · show (b2.exchanges.set D []).getD D [] = []
    exact getD_set_self hD2

theorem guard_exchange_roundtrip_witness :
    ((copyGuardToExchange (fun _ => true) (fun x => x == 0) 0
        ({ supercells := [{ frames := [[some { pos := 3, attr := 0 }]], numParticles := 1 }],
           exchanges := [[]] } : PBuffer)).exchanges.getD 0 []).length = 1
    ∧ ((copyGuardToExchange (fun _ => true) (fun x => x == 0) 0
        ({ supercells := [{ frames := [[some { pos := 3, attr := 0 }]], numParticles := 1 }],
           exchanges := [[]] } : PBuffer)).supercells.getD 0 emptySC).numParticles = 0
    ∧ ((insertParticles 1 1 0
        ({ supercells := [{ frames := [], numParticles := 0 }],
           exchanges := [[{ pos := 0, attr := 7 }]] } : PBuffer)).supercells.getD 0
          emptySC).numParticles
        = (({ supercells := [{ frames := [], numParticles := 0 }],
              exchanges := [[{ pos := 0, attr := 7 }]] } : PBuffer).supercells.getD 0
            emptySC).numParticles + 1
    ∧ (insertParticles 1 1 0
        ({ supercells := [{ frames := [], numParticles := 0 }],
           exchanges := [[{ pos := 0, attr := 7 }]] } : PBuffer)).exchanges.getD 0 [] = [] :=
  guard_exchange_roundtrip 1 1 0 0 0 1
    ({ supercells := [{ frames := [[some { pos := 3, attr := 0 }]], numParticles := 1 }],
       exchanges := [[]] } : PBuffer)
    ({ supercells := [{ frames := [], numParticles := 0 }],
       exchanges := [[{ pos := 0, attr := 7 }]] } : PBuffer)
    (by decide) (by decide) (by decide) (by decide) (by decide) (by decide) (by decide)

/-- Claim C7: `shiftParticles` rejects every mapper whose stride is
below 3 with a fatal (compile-time) assertion, so every dispatched pass
uses a stride of at least 3, two supercells of one dispatched pass are
never adjacent, and in any dimensionality two distinct members of one
stride-spaced pass are never Moore-adjacent. -/
theorem shiftParticles_stride_safety (W C stride : Nat) (area : Nat → Bool)
    (s : List SuperCell) :
    (stride < 3 → shiftParticlesWith W C area stride s = none)
    ∧ (∀ s' ds, shiftParticlesWith W C area stride s = some (s', ds) →
        3 ≤ stride ∧ ∀ pass ∈ ds, ∀ i ∈ pass, ∀ j ∈ pass, i ≠ j → ¬ scAdjacent i j)
    ∧ (∀ (d : Nat) (off a b : Fin d → Int), 3 ≤ stride →
        inStridePass d stride off a → inStridePass d stride off b → a ≠ b →
        ¬ mooreAdjacent d a b) := by
  refine ⟨?_, ?_, ?_⟩
  · intro h
    rw [shiftParticlesWith, if_pos h]
  · intro s' ds hrun
    obtain ⟨h3, -, hds⟩ := shiftParticlesWith_some hrun
    refine ⟨h3, ?_⟩
    intro pass hpass i hi j hj hne
    rw [hds] at hpass
    rcases List.mem_map.1 hpass with ⟨k, -, rfl⟩
    exact not_adjacent_of_same_pass h3 hi hj hne
  · intro d off a b h3 ha hb hne
    exact stride_pass_not_adjacent h3 ha hb hne

theorem shiftParticles_stride_safety_witness :
    shiftParticlesWith 1 1 (fun _ => true) 2 [] = none :=
  (shiftParticles_stride_safety 1 1 2 (fun _ => true) []).1 (by decide)

/-- Claim C8: no frame of any state reachable by the public operations
ever holds more slots than the tile volume `C`, and an append into a
supercell whose tail frame is full allocates a new frame rather than
overflowing the existing one. -/
theorem frame_capacity_invariant (W C : Nat) (b : PBuffer) (hC : 0 < C)
    (hb : Reach W C b) :
    FramesWF C b.supercells
    ∧ ∀ (fs : List Frame) (f : Frame) (p : Particle),
        fs.getLast? = some f → C ≤ f.length →
        appendToFrames C p fs = fs ++ [[some p]] :=
  ⟨reach_framesWF hC hb, fun fs f p h1 h2 => appendToFrames_full C p fs f h1 h2⟩

theorem frame_capacity_invariant_witness :
    0 < 1 ∧ FramesWF 1 (mkBuffer 2 1).supercells :=
  ⟨by decide, (frame_capacity_invariant 1 1 (mkBuffer 2 1) (by decide) (Reach.init 2 1)).1⟩

/-- Claim C9: the number of neighbor directions accepted by the
direction-taking operations is fixed by the dimensionality — a particle
buffer carries 8 exchange buffers in 2D and 26 in 3D. -/
theorem exchange_direction_count (n : Nat) :
    (mkBuffer 2 n).exchanges.length = 8 ∧ (mkBuffer 3 n).exchanges.length = 26 := by
  constructor <;> simp [mkBuffer, numberOfExchanges]

/-- Claim C10: the zero-argument `shiftParticles<T_area>()` is
extensionally equal to the factory overload applied to a stride-3 area
mapper factory: it produces exactly the same buffer state and the same
dispatched pass sequence. -/
theorem shiftParticles_default_equals_stride3_factory (W C : Nat) (area : Nat → Bool)
    (s : List SuperCell) :
    shiftParticles W C area s = shiftParticlesWith W C area 3 s := rfl

end PMacc
